import Mathlib

/-!
Verification of the chain engine of the bitcoin-rust repository against its
natural-language specification.

The development shallowly embeds the Rust sources:
src/lib/src/types/blockchain.rs, src/lib/src/types/block.rs,
src/lib/src/types/transaction.rs, src/lib/src/sha256.rs and src/lib/src/lib.rs.
Machine integers (u64) are modelled as Nat; overflow is commented at each site
where the source can overflow or panic.  SHA-256 over the canonical CBOR
encoding, and secp256k1 signature verification, are provided by external
crates (sha2, ciborium, ecdsa); they are modelled as an arbitrary parameter
structure HashEnv, so every theorem holds for every choice of hash and
signature functions, and concrete witnesses instantiate an executable mock.
-/

/-- Modelled from the spec (section 7): the error kinds of the chain engine.
The file src/lib/src/error.rs is not among the provided sources; the spec
lists exactly these four chain-engine error kinds. -/
inductive BtcError where
  | InvalidBlock
  | InvalidMerkleRoot
  | InvalidTransaction
  | InvalidSignature
deriving DecidableEq, Repr

/-- TransactionOutput from src/lib/src/types/transaction.rs.
value is a u64 amount in satoshi, unique_id a 128-bit UUID, pubkey an
abstract secp256k1 public key; both are modelled as Nat. -/
structure TransactionOutput where
  value : Nat
  unique_id : Nat
  pubkey : Nat
deriving DecidableEq, Repr

/-- TransactionInput from src/lib/src/types/transaction.rs.
prev_transaction_output_hash is the 256-bit hash (a big integer) of the
output being spent; signature is an abstract ECDSA signature. -/
structure TransactionInput where
  prev_transaction_output_hash : Nat
  signature : Nat
deriving DecidableEq, Repr

/-- Transaction from src/lib/src/types/transaction.rs. -/
structure Transaction where
  inputs : List TransactionInput
  outputs : List TransactionOutput
deriving DecidableEq, Repr

/-- BlockHeader from src/lib/src/types/block.rs.  timestamp is a UTC instant
modelled in whole seconds as Int (chrono DateTime; the retarget code only
ever observes whole-second differences), nonce a u64, the two hashes and the
target are 256-bit integers modelled as Nat. -/
structure BlockHeader where
  timestamp : Int
  nonce : Nat
  prev_block_hash : Nat
  merkle_root : Nat
  target : Nat
deriving DecidableEq, Repr

/-- Block from src/lib/src/types/block.rs. -/
structure Block where
  header : BlockHeader
  transactions : List Transaction
deriving DecidableEq, Repr

/-- UTXO set entries: HashMap from Hash to (marked, TransactionOutput),
modelled as an association list with HashMap update semantics (keys
unique by construction of the update operations below). -/
abbrev UtxoMap := List (Nat × (Bool × TransactionOutput))

/-- Blockchain from src/lib/src/types/blockchain.rs. -/
structure Blockchain where
  utxos : UtxoMap
  target : Nat
  blocks : List Block
  mempool : List (Int × Transaction)
deriving DecidableEq, Repr

/-- Modelled from the spec (section 4.1): all hashing is SHA-256 over the
canonical CBOR encoding, provided by external crates (sha2, ciborium), and
signature verification is secp256k1 ECDSA from the ecdsa crate (the verify
method used at block.rs line 135 is not among the provided sources).
Both are treated as an arbitrary parameter: one field per hashed entity
type, a pair combiner for interior Merkle nodes, and the signature
verification predicate taking (signature, message hash, pubkey). -/
structure HashEnv where
  hashOutput : TransactionOutput → Nat
  hashTx : Transaction → Nat
  hashHeader : BlockHeader → Nat
  hashBlock : Block → Nat
  hashPair : Nat → Nat → Nat
  sigVerify : Nat → Nat → Nat → Bool

/-- HashMap get: the value stored at key k, if any. -/
def mapGet (m : List (Nat × α)) (k : Nat) : Option α :=
  (m.find? (fun e => e.1 == k)).map (fun e => e.2)

/-- HashMap contains_key. -/
def mapContains (m : List (Nat × α)) (k : Nat) : Bool :=
  m.any (fun e => e.1 == k)

/-- HashMap insert: overwrite the entry at k if present, else add it. -/
def mapInsert (m : List (Nat × α)) (k : Nat) (v : α) : List (Nat × α) :=
  if mapContains m k then m.map (fun e => if e.1 == k then (k, v) else e)
  else m ++ [(k, v)]

/-- HashMap entry(k).and_modify(f): modify the value at k when present. -/
def mapModify (m : List (Nat × α)) (k : Nat) (f : α → α) : List (Nat × α) :=
  m.map (fun e => if e.1 == k then (k, f e.2) else e)

/-- HashMap remove. -/
def mapRemove (m : List (Nat × α)) (k : Nat) : List (Nat × α) :=
  m.filter (fun e => e.1 != k)

/-- Constants from src/lib/src/lib.rs. -/
def INITIAL_REWARD : Nat := 50

def HALVING_INTERVAL : Nat := 210

def IDEAL_BLOCK_TIME : Nat := 10

def DIFFICULTY_UPDATE_INTERVAL : Nat := 50

def MAX_MEMPOOL_TRANSACTION_AGE : Nat := 600

/-- MIN_TARGET from src/lib/src/lib.rs: the U256 with little-endian limbs
[0xFFFFFFFFFFFFFFFF, 0xFFFFFFFFFFFFFFFF, 0xFFFFFFFFFFFFFFFF,
0x0000FFFFFFFFFFFF], that is (2 ^ 48 - 1) * 2 ^ 192 + (2 ^ 192 - 1)
= 2 ^ 240 - 1.  (The spec text calls this 2 ^ 208 - 1, but no claim
depends on the numeric value.) -/
def MIN_TARGET : Nat := 2 ^ 240 - 1

/-- Modelled from the spec (section 3): one level of the Merkle reduction,
pairing adjacent leaf hashes and duplicating a trailing odd leaf.
MerkleRoot::calculate lives in src/lib/src/util.rs which is not among the
provided sources. -/
def merkleLevel (H : HashEnv) : List Nat → List Nat
  | [] => []
  | [a] => [H.hashPair a a]
  | a :: b :: rest => H.hashPair a b :: merkleLevel H rest

/-- Modelled from the spec: iterate merkleLevel until one hash remains; an
empty sequence reduces to Hash::zero.  The fuel argument (instantiated with
the number of leaves, an upper bound on the number of levels since each
level at least halves a list of length two or more) only serves structural
termination and is never exhausted. -/
def merkleReduceAux (H : HashEnv) : Nat → List Nat → Nat
  | _, [] => 0
  | _, [a] => a
  | 0, a :: _ :: _ => a
  | fuel + 1, a :: b :: rest => merkleReduceAux H fuel (merkleLevel H (a :: b :: rest))

/-- Modelled from the spec: MerkleRoot::calculate over a transaction list. -/
def merkleRootCalculate (H : HashEnv) (transactions : List Transaction) : Nat :=
  merkleReduceAux H (transactions.map H.hashTx).length (transactions.map H.hashTx)

/-- Blockchain::new (blockchain.rs lines 26-33). -/
def Blockchain.new : Blockchain :=
  { utxos := [], target := MIN_TARGET, blocks := [], mempool := [] }

/-- Blockchain::block_height (blockchain.rs lines 52-54). -/
def Blockchain.block_height (s : Blockchain) : Nat :=
  s.blocks.length

/-- Blockchain::calculate_block_reward (blockchain.rs lines 56-66) as a
function of the height.  The Rust shift (INITIAL_REWARD * 10^8) >> halvings
is total here because the halvings >= 64 case is cut off first, exactly as
in the source. -/
def calculate_block_reward_at (block_height : Nat) : Nat :=
  let halvings := block_height / HALVING_INTERVAL
  if halvings ≥ 64 then 0
  else (INITIAL_REWARD * 10 ^ 8) >>> halvings

/-- Blockchain::calculate_block_reward, the method. -/
def Blockchain.calculate_block_reward (s : Blockchain) : Nat :=
  calculate_block_reward_at s.block_height

/-- The block reward expression of Block::verify_coinbase_transaction
(block.rs lines 83-84): INITIAL_REWARD * 10u64.pow(8) / 2u64.pow(halvings).
In u64 arithmetic 2u64.pow(h) overflows for h >= 64: a debug build panics in
pow, a release build wraps to 0 and the division then panics with division
by zero.  Either way the source diverges (panics) there, modelled as none. -/
def coinbase_block_reward (predicted_block_height : Nat) : Option Nat :=
  let halvings := predicted_block_height / HALVING_INTERVAL
  if halvings ≥ 64 then none
  else some (INITIAL_REWARD * 10 ^ 8 / 2 ^ halvings)

/-- Inner input loop of Block::calculate_miner_fees (block.rs lines 38-49):
resolve each input in the UTXO set, reject unknown or duplicate references,
and accumulate the referenced outputs into the inputs map. -/
def collectInputs (utxos : UtxoMap) :
    List TransactionInput → List (Nat × TransactionOutput) →
    Except BtcError (List (Nat × TransactionOutput))
  | [], acc => Except.ok acc
  | input :: rest, acc =>
    match mapGet utxos input.prev_transaction_output_hash with
    | none => Except.error BtcError.InvalidTransaction
    | some (_, prev_output) =>
      if mapContains acc input.prev_transaction_output_hash then
        Except.error BtcError.InvalidTransaction
      else collectInputs utxos rest (mapInsert acc input.prev_transaction_output_hash prev_output)

/-- Inner output loop of Block::calculate_miner_fees (block.rs lines 52-57):
reject duplicate output hashes inside the block, accumulate outputs. -/
def collectOutputs (H : HashEnv) :
    List TransactionOutput → List (Nat × TransactionOutput) →
    Except BtcError (List (Nat × TransactionOutput))
  | [], acc => Except.ok acc
  | output :: rest, acc =>
    if mapContains acc (H.hashOutput output) then Except.error BtcError.InvalidTransaction
    else collectOutputs H rest (mapInsert acc (H.hashOutput output) output)

/-- Outer loop of Block::calculate_miner_fees over the non-coinbase
transactions. -/
def minerFeesTxs (H : HashEnv) (utxos : UtxoMap) :
    List Transaction → List (Nat × TransactionOutput) → List (Nat × TransactionOutput) →
    Except BtcError (List (Nat × TransactionOutput) × List (Nat × TransactionOutput))
  | [], ia, oa => Except.ok (ia, oa)
  | transaction :: rest, ia, oa =>
    match collectInputs utxos transaction.inputs ia with
    | Except.error e => Except.error e
    | Except.ok ia1 =>
      match collectOutputs H transaction.outputs oa with
      | Except.error e => Except.error e
      | Except.ok oa1 => minerFeesTxs H utxos rest ia1 oa1

/-- Block::calculate_miner_fees (block.rs lines 29-63).  The final u64
subtraction input_value - output_value underflows (panics in a debug build)
when the outputs of the non-coinbase transactions exceed their inputs; the
truncated Nat subtraction stands in for that region, which no claim
exercises. -/
def Block.calculate_miner_fees (H : HashEnv) (b : Block) (utxos : UtxoMap) :
    Except BtcError Nat :=
  match minerFeesTxs H utxos (b.transactions.drop 1) [] [] with
  | Except.error e => Except.error e
  | Except.ok (ia, oa) =>
    let input_value := (ia.map (fun e => e.2.value)).sum
    let output_value := (oa.map (fun e => e.2.value)).sum
    Except.ok (input_value - output_value)

/-- Block::verify_coinbase_transaction (block.rs lines 65-95).  The source
indexes transactions[0], which panics on an empty block; the only caller
checks emptiness first, so the empty branch here is unreachable junk.
The reward expression is written as total Nat arithmetic; at
predicted_block_height / HALVING_INTERVAL >= 64 the source instead panics
(see coinbase_block_reward), which claim C7 records. -/
def Block.verify_coinbase_transaction (H : HashEnv) (b : Block)
    (predicted_block_height : Nat) (utxos : UtxoMap) : Except BtcError Unit :=
  match b.transactions with
  | [] => Except.error BtcError.InvalidTransaction
  | coinbase_transaction :: _ =>
    if coinbase_transaction.inputs.length ≠ 0 then Except.error BtcError.InvalidTransaction
    else if coinbase_transaction.outputs.length = 0 then Except.error BtcError.InvalidTransaction
    else
      match b.calculate_miner_fees H utxos with
      | Except.error e => Except.error e
      | Except.ok miner_fees =>
        let block_reward := INITIAL_REWARD * 10 ^ 8 / 2 ^ (predicted_block_height / HALVING_INTERVAL)
        let total_coinbase_outputs := (coinbase_transaction.outputs.map (fun o => o.value)).sum
        if total_coinbase_outputs ≠ block_reward + miner_fees then
          Except.error BtcError.InvalidTransaction
        else Except.ok ()

/-- Inner input loop of Block::verify_transactions (block.rs lines 119-141):
resolve the input, reject duplicates across the whole block, verify the
signature over the referenced output hash under the referenced pubkey,
accumulate the input value and record the reference. -/
def verifyInputsLoop (H : HashEnv) (utxos : UtxoMap) :
    List TransactionInput → Nat → List (Nat × TransactionOutput) →
    Except BtcError (Nat × List (Nat × TransactionOutput))
  | [], input_value, acc => Except.ok (input_value, acc)
  | input :: rest, input_value, acc =>
    match mapGet utxos input.prev_transaction_output_hash with
    | none => Except.error BtcError.InvalidTransaction
    | some (_, prev_output) =>
      if mapContains acc input.prev_transaction_output_hash then
        Except.error BtcError.InvalidTransaction
      else if H.sigVerify input.signature input.prev_transaction_output_hash prev_output.pubkey then
        verifyInputsLoop H utxos rest (input_value + prev_output.value)
          (mapInsert acc input.prev_transaction_output_hash prev_output)
      else Except.error BtcError.InvalidSignature

/-- Loop of Block::verify_transactions over the non-coinbase transactions
(block.rs lines 114-152); the inputs map of spent references persists
across transactions. -/
def verifyTxLoop (H : HashEnv) (utxos : UtxoMap) :
    List Transaction → List (Nat × TransactionOutput) → Except BtcError Unit
  | [], _ => Except.ok ()
  | transaction :: rest, acc =>
    match verifyInputsLoop H utxos transaction.inputs 0 acc with
    | Except.error e => Except.error e
    | Except.ok (input_value, acc1) =>
      let output_value := (transaction.outputs.map (fun o => o.value)).sum
      if input_value < output_value then Except.error BtcError.InvalidTransaction
      else verifyTxLoop H utxos rest acc1

/-- Block::verify_transactions (block.rs lines 97-155). -/
def Block.verify_transactions (H : HashEnv) (b : Block)
    (predicted_block_height : Nat) (utxos : UtxoMap) : Except BtcError Unit :=
  if b.transactions.isEmpty then Except.error BtcError.InvalidTransaction
  else
    match b.verify_coinbase_transaction H predicted_block_height utxos with
    | Except.error e => Except.error e
    | Except.ok _ => verifyTxLoop H utxos (b.transactions.drop 1) []

/-- Blockchain::try_adjust_target (blockchain.rs lines 288-350).  The source
computes BigDecimal(target) * (BigDecimal(time_diff_seconds) /
BigDecimal(target_seconds)) and truncates the decimal string at the decimal
point.  Since target_seconds = IDEAL_BLOCK_TIME * DIFFICULTY_UPDATE_INTERVAL
= 500 = 2^2 * 5^3, the quotient is a terminating decimal of at most 23
significant digits, computed exactly within the default BigDecimal
precision, and the product is exact arbitrary-precision arithmetic; for a
nonnegative time difference the composite therefore equals the integer
quotient target * time_diff_seconds / 500 rounded toward zero, as modelled
here.  When the product is negative the source panics (U256 parsing of a
negative decimal string fails); the model takes Int.toNat, and every theorem
restricts to the nonnegative case. -/
def Blockchain.try_adjust_target (s : Blockchain) : Blockchain :=
  if s.blocks.isEmpty then s
  else if s.blocks.length % DIFFICULTY_UPDATE_INTERVAL ≠ 0 then s
  else
    match s.blocks[s.blocks.length - DIFFICULTY_UPDATE_INTERVAL]?, s.blocks.getLast? with
    | some start_block, some end_block =>
      let time_diff_seconds : Int := end_block.header.timestamp - start_block.header.timestamp
      let target_seconds : Int := (IDEAL_BLOCK_TIME * DIFFICULTY_UPDATE_INTERVAL : Nat)
      let new_target : Nat := (((s.target : Int) * time_diff_seconds) / target_seconds).toNat
      let new_target2 : Nat :=
        if new_target < s.target / 4 then s.target / 4
        else if new_target > s.target * 4 then s.target * 4
        else new_target
      { s with target := min new_target2 MIN_TARGET }
    | _, _ => s

/-- Checks of Blockchain::add_block (blockchain.rs lines 220-259): the
genesis special case demands a zero previous hash and nothing else; a
non-genesis block must link to the hash of the last block, meet its own
target, carry the recomputed Merkle root, strictly advance the timestamp,
and pass transaction verification at height blocks.len(). -/
def addBlockChecks (H : HashEnv) (s : Blockchain) (block : Block) : Except BtcError Unit :=
  match s.blocks.getLast? with
  | none =>
    if block.header.prev_block_hash ≠ 0 then Except.error BtcError.InvalidBlock
    else Except.ok ()
  | some last_block =>
    if block.header.prev_block_hash ≠ H.hashBlock last_block then
      Except.error BtcError.InvalidBlock
    else if ¬ (H.hashHeader block.header ≤ block.header.target) then
      Except.error BtcError.InvalidBlock
    else if merkleRootCalculate H block.transactions ≠ block.header.merkle_root then
      Except.error BtcError.InvalidMerkleRoot
    else if block.header.timestamp ≤ last_block.header.timestamp then
      Except.error BtcError.InvalidBlock
    else block.verify_transactions H s.blocks.length s.utxos

/-- Blockchain::add_block (blockchain.rs lines 220-271), returning the Rust
result together with the final state of the receiver.  All checks precede
all mutations in the source, so an early error return leaves the state as
received.  On success the source drops from the mempool every transaction
whose hash occurs among the block transaction hashes, pushes the block, and
calls try_adjust_target; it does not touch the utxos field. -/
def Blockchain.add_block (H : HashEnv) (s : Blockchain) (block : Block) :
    Except BtcError Unit × Blockchain :=
  match addBlockChecks H s block with
  | Except.error e => (Except.error e, s)
  | Except.ok _ =>
    let block_transactions := block.transactions.map H.hashTx
    let s1 : Blockchain :=
      { s with
        mempool := s.mempool.filter (fun p => !(block_transactions.contains (H.hashTx p.2))),
        blocks := s.blocks ++ [block] }
    (Except.ok (), s1.try_adjust_target)

/-- Blockchain::rebuild_utxos (blockchain.rs lines 274-286): for every
transaction of every block remove the spent references, then insert every
output as unmarked, keyed by the hash of the containing transaction (the
source keys by transaction hash, not by output hash, so a later output of
the same transaction overwrites an earlier one). -/
def Blockchain.rebuild_utxos (H : HashEnv) (s : Blockchain) : Blockchain :=
  { s with
    utxos := s.blocks.foldl (fun u block =>
      block.transactions.foldl (fun u transaction =>
        let u1 := transaction.inputs.foldl
          (fun u input => mapRemove u input.prev_transaction_output_hash) u
        transaction.outputs.foldl
          (fun u output => mapInsert u (H.hashTx transaction) (false, output)) u1)
        u) s.utxos }

/-- Blockchain::cleanup_mempool (blockchain.rs lines 190-218): drop every
entry older than MAX_MEMPOOL_TRANSACTION_AGE seconds and set the marked
flag of each UTXO referenced by a dropped entry back to false.  Utc::now()
is passed in as the parameter now. -/
def Blockchain.cleanup_mempool (s : Blockchain) (now : Int) : Blockchain :=
  let expired := fun (p : Int × Transaction) =>
    decide (now - p.1 > (MAX_MEMPOOL_TRANSACTION_AGE : Int))
  let utxo_hashes_to_unmark :=
    ((s.mempool.filter expired).map
      (fun p => p.2.inputs.map (fun input => input.prev_transaction_output_hash))).flatten
  { s with
    mempool := s.mempool.filter (fun p => !(expired p)),
    utxos := utxo_hashes_to_unmark.foldl
      (fun u h => mapModify u h (fun e => (false, e.2))) s.utxos }

/-- First admission loop of Blockchain::add_to_mempool (blockchain.rs lines
70-84): every input must resolve in the UTXO set and the inputs must
reference pairwise distinct prior outputs. -/
def checkKnownInputs (utxos : UtxoMap) : List TransactionInput → List Nat → Bool
  | [], _ => true
  | input :: rest, known =>
    if !(mapContains utxos input.prev_transaction_output_hash) then false
    else if known.contains input.prev_transaction_output_hash then false
    else checkKnownInputs utxos rest (input.prev_transaction_output_hash :: known)

/-- One iteration of the RBF loop of Blockchain::add_to_mempool
(blockchain.rs lines 94-134): when the referenced UTXO is marked, find the
first mempool transaction producing an output with that hash; if found,
unmark all UTXOs referenced by its inputs and remove it from the mempool,
otherwise defensively unmark the conflicting UTXO. -/
def rbfStep (H : HashEnv) (s : Blockchain) (input : TransactionInput) : Blockchain :=
  match mapGet s.utxos input.prev_transaction_output_hash with
  | some (true, _) =>
    match s.mempool.enum.find? (fun p =>
        p.2.2.outputs.any (fun output =>
          H.hashOutput output == input.prev_transaction_output_hash)) with
    | some (idx, (_, referencing_transaction)) =>
      { s with
        utxos := referencing_transaction.inputs.foldl
          (fun u inp => mapModify u inp.prev_transaction_output_hash (fun e => (false, e.2)))
          s.utxos,
        mempool := s.mempool.eraseIdx idx }
    | none =>
      { s with
        utxos := mapModify s.utxos input.prev_transaction_output_hash (fun e => (false, e.2)) }
  | _ => s

/-- RBF loop over all inputs of the incoming transaction. -/
def rbfLoop (H : HashEnv) (s : Blockchain) : List TransactionInput → Blockchain
  | [] => s
  | input :: rest => rbfLoop H (rbfStep H s input) rest

/-- Sum of the UTXO values referenced by the inputs of a transaction minus
the sum of its output values: the sort key closure of blockchain.rs lines
164-185 and the fee computed at lines 138-152.  The lookups use expect in
the source (panicking when a reference is missing, modelled by getD 0), and
the subtraction is u64 (underflow panics in a debug build; truncated Nat
subtraction stands in, and no claim exercises either region). -/
def mempoolFee (utxos : UtxoMap) (transaction : Transaction) : Nat :=
  let all_inputs := (transaction.inputs.map (fun input =>
    (Option.map (fun e => e.2.value) (mapGet utxos input.prev_transaction_output_hash)).getD 0)).sum
  let all_outputs := (transaction.outputs.map (fun output => output.value)).sum
  all_inputs - all_outputs

/-- Stable insertion into a sorted list: the new element goes before the
first element it compares le to, hence after all earlier elements with an
equal key. -/
def insertOrdered (le : α → α → Bool) (a : α) : List α → List α
  | [] => [a]
  | b :: bs => if le a b then a :: b :: bs else b :: insertOrdered le a bs

/-- Stable insertion sort, modelling the stable ascending Vec::sort_by_key
of the Rust standard library. -/
def insSort (le : α → α → Bool) : List α → List α
  | [] => []
  | a :: rest => insertOrdered le a (insSort le rest)

/-- Blockchain::add_to_mempool (blockchain.rs lines 69-188), returning the
Rust result together with the final state.  Phases in source order: the
known-inputs checks (pure), the RBF loop (mutates utxos and mempool), the
fee sanity check (an error here returns AFTER the RBF mutations), then push
(now, transaction) and the stable ascending sort of the mempool by the fee
key.  Utc::now() is passed in as the parameter now. -/
def Blockchain.add_to_mempool (H : HashEnv) (s : Blockchain) (now : Int)
    (transaction : Transaction) : Except BtcError Unit × Blockchain :=
  if checkKnownInputs s.utxos transaction.inputs [] then
    let s1 := rbfLoop H s transaction.inputs
    let all_inputs := (transaction.inputs.map (fun input =>
      (Option.map (fun e => e.2.value)
        (mapGet s1.utxos input.prev_transaction_output_hash)).getD 0)).sum
    let all_outputs := (transaction.outputs.map (fun output => output.value)).sum
    if all_inputs < all_outputs then
      (Except.error BtcError.InvalidTransaction, s1)
    else
      let mempool1 := s1.mempool ++ [(now, transaction)]
      let mempool2 := insSort
        (fun a b => Nat.ble (mempoolFee s1.utxos a.2) (mempoolFee s1.utxos b.2)) mempool1
      (Except.ok (), { s1 with mempool := mempool2 })
  else (Except.error BtcError.InvalidTransaction, s)

/-- Loop of BlockHeader::mine (block.rs lines 206-216): step the nonce
(checked u64 increment; on overflow reset the nonce to zero and refresh the
timestamp from Utc::now(), modelled by the oracle nowAt indexed by the
remaining step count), then stop as soon as the header hash meets the
target, or after steps iterations. -/
def mineLoop (H : HashEnv) (nowAt : Nat → Int) : Nat → BlockHeader → Bool × BlockHeader
  | 0, h => (false, h)
  | steps + 1, h =>
    let h1 := if h.nonce + 1 < 2 ^ 64 then { h with nonce := h.nonce + 1 }
              else { h with nonce := 0, timestamp := nowAt steps }
    if H.hashHeader h1 ≤ h1.target then (true, h1)
    else mineLoop H nowAt steps h1

/-- BlockHeader::mine (block.rs lines 202-218): succeed immediately when the
current hash already meets the target, else run the search loop. -/
def BlockHeader.mine (H : HashEnv) (nowAt : Nat → Int) (h : BlockHeader) (steps : Nat) :
    Bool × BlockHeader :=
  if H.hashHeader h ≤ h.target then (true, h)
  else mineLoop H nowAt steps h

/-- Concrete executable instantiation of the hash and signature parameters,
used by witnesses and counterexamples.  Output hashes are read off the
unique_id field, transaction hashes from the output ids, header and block
hashes from the nonce, and every signature verifies. -/
def mockHash : HashEnv where
  hashOutput o := o.unique_id
  hashTx t := (t.outputs.map (fun o => o.unique_id)).sum + 1000
  hashHeader h := h.nonce
  hashBlock b := b.header.nonce + 1
  hashPair a b := a + 2 * b + 1
  sigVerify _ _ _ := true

/-- Genesis scenario of the spec (section 8, scenario 1): a single coinbase
output paying 50 * 10 ^ 8. -/
def genesisOutput : TransactionOutput :=
  { value := 50 * 10 ^ 8, unique_id := 11, pubkey := 7 }

def genesisCoinbase : Transaction :=
  { inputs := [], outputs := [genesisOutput] }

def genesisBlock : Block :=
  { header :=
      { timestamp := 1, nonce := 0, prev_block_hash := 0,
        merkle_root := merkleRootCalculate mockHash [genesisCoinbase], target := MIN_TARGET },
    transactions := [genesisCoinbase] }

/-- Genesis block whose header carries a wrong Merkle root: the transaction
list is empty, so the recomputed root is zero, while the header says 1.
Every other genesis requirement (zero previous hash) holds. -/
def c2BadGenesis : Block :=
  { header :=
      { timestamp := 1, nonce := 0, prev_block_hash := 0, merkle_root := 1, target := MIN_TARGET },
    transactions := [] }

/-- The chain obtained by adding the bad genesis block to the empty chain. -/
def c2BadChain : Blockchain :=
  (Blockchain.add_block mockHash Blockchain.new c2BadGenesis).2

/-- Candidate block violating the genesis linkage rule (nonzero previous
hash on an empty chain). -/
def c3BadBlock : Block :=
  { header :=
      { timestamp := 1, nonce := 0, prev_block_hash := 5, merkle_root := 0, target := 0 },
    transactions := [] }

/-- Mempool ordering scenario: two spendable UTXOs of value 300 each. -/
def c4Out1 : TransactionOutput := { value := 300, unique_id := 1, pubkey := 7 }

def c4Out2 : TransactionOutput := { value := 300, unique_id := 2, pubkey := 7 }

def c4State : Blockchain :=
  { utxos := [(1, (false, c4Out1)), (2, (false, c4Out2))],
    target := MIN_TARGET, blocks := [], mempool := [] }

/-- Transaction paying fee 100 (input 300, output 200). -/
def c4TxA : Transaction :=
  { inputs := [{ prev_transaction_output_hash := 1, signature := 0 }],
    outputs := [{ value := 200, unique_id := 21, pubkey := 7 }] }

/-- Transaction paying fee 200 (input 300, output 100). -/
def c4TxB : Transaction :=
  { inputs := [{ prev_transaction_output_hash := 2, signature := 0 }],
    outputs := [{ value := 100, unique_id := 22, pubkey := 7 }] }

/-- Admit the fee-100 transaction, then the fee-200 transaction. -/
def c4Run : Except BtcError Unit × Blockchain :=
  Blockchain.add_to_mempool mockHash
    (Blockchain.add_to_mempool mockHash c4State 10 c4TxA).2 11 c4TxB

/-- Marking scenario: one unmarked UTXO of value 300 under key 1, with a
mempool transaction already spending it. -/
def c5OutU : TransactionOutput := { value := 300, unique_id := 1, pubkey := 7 }

def c5TxA : Transaction :=
  { inputs := [{ prev_transaction_output_hash := 1, signature := 0 }],
    outputs := [{ value := 100, unique_id := 31, pubkey := 7 }] }

def c5State : Blockchain :=
  { utxos := [(1, (false, c5OutU))], target := MIN_TARGET, blocks := [],
    mempool := [(5, c5TxA)] }

/-- Conflicting transaction spending the same UTXO key 1. -/
def c5TxB : Transaction :=
  { inputs := [{ prev_transaction_output_hash := 1, signature := 1 }],
    outputs := [{ value := 50, unique_id := 32, pubkey := 7 }] }

def c5Run : Except BtcError Unit × Blockchain :=
  Blockchain.add_to_mempool mockHash c5State 6 c5TxB

/-- Rollback scenario: UTXO key 5 is marked, key 6 unmarked; the mempool
transaction produces an output hashing to 5 (unique_id 5) and spends key 6. -/
def c6OutU : TransactionOutput := { value := 10, unique_id := 5, pubkey := 7 }

def c6OutW : TransactionOutput := { value := 40, unique_id := 6, pubkey := 7 }

def c6TxA : Transaction :=
  { inputs := [{ prev_transaction_output_hash := 6, signature := 0 }],
    outputs := [{ value := 30, unique_id := 5, pubkey := 7 }] }

def c6State : Blockchain :=
  { utxos := [(5, (true, c6OutU)), (6, (false, c6OutW))],
    target := MIN_TARGET, blocks := [], mempool := [(0, c6TxA)] }

/-- Incoming transaction spending the marked UTXO key 5 but overspending
(outputs 999 against inputs 10), so the fee check fails after the RBF
eviction already ran. -/
def c6TxT : Transaction :=
  { inputs := [{ prev_transaction_output_hash := 5, signature := 0 }],
    outputs := [{ value := 999, unique_id := 33, pubkey := 7 }] }

def c6Run : Except BtcError Unit × Blockchain :=
  Blockchain.add_to_mempool mockHash c6State 1 c6TxT

/-- Retarget witness chain: 50 trivial blocks at timestamps 0 to 49. -/
def c8Blk (i : Nat) : Block :=
  { header :=
      { timestamp := (i : Int), nonce := 0, prev_block_hash := 0, merkle_root := 0, target := 0 },
    transactions := [] }

def c8State : Blockchain :=
  { utxos := [], target := MIN_TARGET, blocks := (List.range 50).map c8Blk, mempool := [] }

/-- Mining witness headers: with the mock header hash equal to the nonce,
the first header (nonce 5, target 7) succeeds immediately and the second
(nonce 5, target 3) fails after any number of steps below the overflow. -/
def c9HeaderTrue : BlockHeader :=
  { timestamp := 0, nonce := 5, prev_block_hash := 1, merkle_root := 2, target := 7 }

def c9HeaderFalse : BlockHeader :=
  { timestamp := 0, nonce := 5, prev_block_hash := 1, merkle_root := 2, target := 3 }

/-- What a successful addBlockChecks guarantees about the appended block:
the genesis rule on an empty chain, and linkage, proof of work, Merkle root
and strict timestamp advance against the last block otherwise. -/
def extendOk (H : HashEnv) (blocks : List Block) (b : Block) : Prop :=
  match blocks.getLast? with
  | none => b.header.prev_block_hash = 0
  | some last_block =>
      b.header.prev_block_hash = H.hashBlock last_block ∧
      H.hashHeader b.header ≤ b.header.target ∧
      b.header.merkle_root = merkleRootCalculate H b.transactions ∧
      last_block.header.timestamp < b.header.timestamp

/-- Block lists built by repeatedly appending blocks that pass the
add_block checks. -/
inductive GoodBlocks (H : HashEnv) : List Block → Prop
  | nil : GoodBlocks H []
  | snoc (l : List Block) (b : Block) :
      GoodBlocks H l → extendOk H l b → GoodBlocks H (l ++ [b])

/-- States reachable from the empty Blockchain by successful add_block
calls alone. -/
inductive ReachableAdd (H : HashEnv) : Blockchain → Prop
  | base : ReachableAdd H Blockchain.new
  | step (s : Blockchain) (b : Block) (s' : Blockchain) :
      ReachableAdd H s → Blockchain.add_block H s b = (Except.ok (), s') →
      ReachableAdd H s'

/-- The state reached by accepting the valid genesis block on the empty
chain. -/
def c1Chain : Blockchain :=
  (Blockchain.add_block mockHash Blockchain.new genesisBlock).2

/-- States reachable from the empty Blockchain by any sequence of chain
engine operations: add_block and add_to_mempool (successful or failed,
taking the state the call returns), cleanup_mempool, rebuild_utxos and
try_adjust_target. -/
inductive EngineReachable (H : HashEnv) : Blockchain → Prop
  | base : EngineReachable H Blockchain.new
  | addBlock (s : Blockchain) (b : Block) :
      EngineReachable H s → EngineReachable H (Blockchain.add_block H s b).2
  | addToMempool (s : Blockchain) (now : Int) (T : Transaction) :
      EngineReachable H s → EngineReachable H (Blockchain.add_to_mempool H s now T).2
  | cleanup (s : Blockchain) (now : Int) :
      EngineReachable H s → EngineReachable H (s.cleanup_mempool now)
  | rebuild (s : Blockchain) :
      EngineReachable H s → EngineReachable H (s.rebuild_utxos H)
  | adjust (s : Blockchain) :
      EngineReachable H s → EngineReachable H s.try_adjust_target

/-- All-unmarked-state transaction that overspends (outputs 999 against
inputs 300), used to exercise the failure path of add_to_mempool. -/
def c6TxBad : Transaction :=
  { inputs := [{ prev_transaction_output_hash := 1, signature := 0 }],
    outputs := [{ value := 999, unique_id := 44, pubkey := 7 }] }

theorem try_adjust_target_preserves (s : Blockchain) :
    s.try_adjust_target.blocks = s.blocks ∧ s.try_adjust_target.mempool = s.mempool ∧
    s.try_adjust_target.utxos = s.utxos := by
  unfold Blockchain.try_adjust_target
  split
  · exact ⟨rfl, rfl, rfl⟩
  · split
    · exact ⟨rfl, rfl, rfl⟩
    · split <;> exact ⟨rfl, rfl, rfl⟩

theorem add_block_ok_decompose (H : HashEnv) (s : Blockchain) (b : Block)
    (h : (Blockchain.add_block H s b).1 = Except.ok ()) :
    addBlockChecks H s b = Except.ok () ∧
    (Blockchain.add_block H s b).2 = Blockchain.try_adjust_target
      { s with
        mempool := s.mempool.filter
          (fun p => !((b.transactions.map H.hashTx).contains (H.hashTx p.2))),
        blocks := s.blocks ++ [b] } := by
  unfold Blockchain.add_block at *
  cases hc : addBlockChecks H s b with
  | error e => rw [hc] at h; simp at h
  | ok u => cases u; exact ⟨rfl, rfl⟩

/-- C3: if add_block returns an error then the blockchain state (utxos,
target, blocks, mempool) is exactly the state before the call.  In the
source every early error return precedes every mutation of the receiver, so
the final state of a failed call is the received state. -/
theorem add_block_error_leaves_state_unchanged (H : HashEnv) (s : Blockchain) (b : Block)
    (e : BtcError) (h : (Blockchain.add_block H s b).1 = Except.error e) :
    (Blockchain.add_block H s b).2 = s := by
  unfold Blockchain.add_block at *
  cases hc : addBlockChecks H s b with
  | error e2 => rfl
  | ok u => cases u; rw [hc] at h; simp at h

/-- Witness for C3 at a concrete input: a block with a nonzero previous
hash offered to the empty chain is rejected with InvalidBlock and the
state is unchanged. -/
theorem add_block_error_leaves_state_unchanged_witness :
    (Blockchain.add_block mockHash Blockchain.new c3BadBlock).1
      = Except.error BtcError.InvalidBlock ∧
    (Blockchain.add_block mockHash Blockchain.new c3BadBlock).2 = Blockchain.new :=
  ⟨rfl, add_block_error_leaves_state_unchanged mockHash Blockchain.new c3BadBlock
    BtcError.InvalidBlock rfl⟩

theorem mineLoop_spec (H : HashEnv) (nowAt : Nat → Int) :
    ∀ (steps : Nat) (h : BlockHeader),
      (mineLoop H nowAt steps h).2.prev_block_hash = h.prev_block_hash ∧
      (mineLoop H nowAt steps h).2.merkle_root = h.merkle_root ∧
      (mineLoop H nowAt steps h).2.target = h.target ∧
      ((mineLoop H nowAt steps h).1 = true →
        H.hashHeader (mineLoop H nowAt steps h).2 ≤ (mineLoop H nowAt steps h).2.target) := by
  intro steps
  induction steps with
  | zero => intro h; simp [mineLoop]
  | succ n ih =>
    intro h
    by_cases hn : h.nonce + 1 < 2 ^ 64
    · simp only [mineLoop, if_pos hn]
      split
      · next hhit => exact ⟨rfl, rfl, rfl, fun _ => hhit⟩
      · exact ih _
    · simp only [mineLoop, if_neg hn]
      split
      · next hhit => exact ⟨rfl, rfl, rfl, fun _ => hhit⟩
      · exact ih _

/-- C9: if mine returns true the resulting header hash meets the target of
the resulting header; if it returns false the previous block hash, Merkle
root and target of the header are unchanged (only nonce and timestamp may
differ).  The search itself is the definition mineLoop: increment the
nonce, on u64 overflow reset it to zero and refresh the timestamp, stop
after steps iterations or as soon as the hash meets the target. -/
theorem mine_spec (H : HashEnv) (nowAt : Nat → Int) (h : BlockHeader) (steps : Nat) :
    ((BlockHeader.mine H nowAt h steps).1 = true →
      H.hashHeader (BlockHeader.mine H nowAt h steps).2
        ≤ (BlockHeader.mine H nowAt h steps).2.target) ∧
    ((BlockHeader.mine H nowAt h steps).1 = false →
      (BlockHeader.mine H nowAt h steps).2.prev_block_hash = h.prev_block_hash ∧
      (BlockHeader.mine H nowAt h steps).2.merkle_root = h.merkle_root ∧
      (BlockHeader.mine H nowAt h steps).2.target = h.target) := by
  unfold BlockHeader.mine
  split
  · next hhit => exact ⟨fun _ => hhit, fun hf => by simp at hf⟩
  · have hm := mineLoop_spec H nowAt steps h
    exact ⟨fun _ => hm.2.2.2 (by assumption), fun _ => ⟨hm.1, hm.2.1, hm.2.2.1⟩⟩

/-- Witness for C9 at concrete inputs: a header already meeting its target
returns true with the hash below the target, and a header that cannot meet
its target within two steps returns false with its linking fields intact. -/
theorem mine_spec_witness :
    mockHash.hashHeader (BlockHeader.mine mockHash (fun _ => 0) c9HeaderTrue 3).2
      ≤ (BlockHeader.mine mockHash (fun _ => 0) c9HeaderTrue 3).2.target ∧
    (BlockHeader.mine mockHash (fun _ => 0) c9HeaderFalse 2).2.prev_block_hash
      = c9HeaderFalse.prev_block_hash :=
  ⟨(mine_spec mockHash (fun _ => 0) c9HeaderTrue 3).1 rfl,
   ((mine_spec mockHash (fun _ => 0) c9HeaderFalse 2).2 rfl).1⟩

/-- C7: the reward of Blockchain::calculate_block_reward equals
INITIAL_REWARD * 10^8 shifted right by the halving count at every height
(saturating to zero), with the concrete values 25e8 at height 210 and
125e7 at height 420 and zero from height 210 * 64 on; but the reward
expression inside Block::verify_coinbase_transaction evaluates
2u64.pow(halvings), which panics at every height from 210 * 64 on
(coinbase_block_reward is none there) instead of returning the saturated
zero reward, while the two agree below that height. -/
theorem block_reward_halving_spec :
    (∀ n : Nat, calculate_block_reward_at n
        = (INITIAL_REWARD * 10 ^ 8) >>> (n / HALVING_INTERVAL)) ∧
    (∀ n : Nat, n < 64 * HALVING_INTERVAL →
        coinbase_block_reward n = some (calculate_block_reward_at n)) ∧
    calculate_block_reward_at 210 = 25 * 10 ^ 8 ∧
    calculate_block_reward_at 420 = 1250000000 ∧
    (∀ n : Nat, HALVING_INTERVAL * 64 ≤ n → calculate_block_reward_at n = 0) ∧
    coinbase_block_reward (HALVING_INTERVAL * 64) = none := by
  refine ⟨?_, ?_, by decide, by decide, ?_, by decide⟩
  · intro n
    unfold calculate_block_reward_at
    by_cases hk : n / HALVING_INTERVAL ≥ 64
    · rw [if_pos hk, Nat.shiftRight_eq_div_pow]
      exact (Nat.div_eq_of_lt (lt_of_lt_of_le
        (by decide : INITIAL_REWARD * 10 ^ 8 < 2 ^ 64)
        (Nat.pow_le_pow_right (by decide) hk))).symm
    · rw [if_neg hk]
  · intro n hn
    have hk : ¬ (n / HALVING_INTERVAL ≥ 64) := by
      unfold HALVING_INTERVAL at *; omega
    unfold coinbase_block_reward calculate_block_reward_at
    rw [if_neg hk, if_neg hk, Nat.shiftRight_eq_div_pow]
  · intro n hn
    have hk : n / HALVING_INTERVAL ≥ 64 := by
      unfold HALVING_INTERVAL at *; omega
    unfold calculate_block_reward_at
    rw [if_pos hk]

/-- Witness for C7 at a concrete input: below the panic region the
validation-side reward expression agrees with calculate_block_reward. -/
theorem block_reward_halving_spec_witness :
    210 < 64 * HALVING_INTERVAL ∧
    coinbase_block_reward 210 = some (calculate_block_reward_at 210) :=
  ⟨by decide, block_reward_halving_spec.2.1 210 (by decide)⟩

theorem clamp_if_eq_max_min (t n : Nat) :
    (if n < t / 4 then t / 4 else if n > t * 4 then t * 4 else n)
      = max (t / 4) (min n (t * 4)) := by
  split_ifs <;> omega

/-- C8: try_adjust_target is a no-op unless the chain is non-empty and the
number of blocks is a multiple of DIFFICULTY_UPDATE_INTERVAL; otherwise,
with actual the (nonnegative) timestamp difference in seconds between the
last block and the block DIFFICULTY_UPDATE_INTERVAL from the end, it sets
the target to floor(target * actual / (IDEAL_BLOCK_TIME *
DIFFICULTY_UPDATE_INTERVAL)) computed in exact integer arithmetic, clamped
to the interval from target / 4 to target * 4, and finally capped at
MIN_TARGET, leaving every other field unchanged. -/
theorem try_adjust_target_spec (s : Blockchain) :
    (s.blocks = [] ∨ s.blocks.length % DIFFICULTY_UPDATE_INTERVAL ≠ 0 →
      s.try_adjust_target = s) ∧
    (∀ (start_block end_block : Block) (actual : Nat),
      s.blocks.length % DIFFICULTY_UPDATE_INTERVAL = 0 →
      s.blocks[s.blocks.length - DIFFICULTY_UPDATE_INTERVAL]? = some start_block →
      s.blocks.getLast? = some end_block →
      end_block.header.timestamp - start_block.header.timestamp = (actual : Int) →
      s.try_adjust_target =
        { s with target :=
            (min (max (s.target / 4)
              (min (s.target * actual / (IDEAL_BLOCK_TIME * DIFFICULTY_UPDATE_INTERVAL))
                (s.target * 4))) MIN_TARGET) }) := by
  constructor
  · intro hcond
    unfold Blockchain.try_adjust_target
    rcases hcond with hnil | hmod
    · rw [if_pos (by simp [hnil])]
    · by_cases hnil2 : s.blocks.isEmpty
      · rw [if_pos hnil2]
      · rw [if_neg hnil2, if_pos hmod]
  · intro start_block end_block actual hmod hstart hlast hdiff
    have hne : ¬ s.blocks.isEmpty = true := by
      cases hb : s.blocks with
      | nil => rw [hb] at hlast; simp at hlast
      | cons x xs => simp [hb]
    unfold Blockchain.try_adjust_target
    rw [if_neg hne, if_neg (by simp [hmod]), hstart, hlast]
    simp only
    rw [hdiff]
    have hcast : ∀ a : Nat,
        ((a : Int) / ((IDEAL_BLOCK_TIME * DIFFICULTY_UPDATE_INTERVAL : Nat) : Int)).toNat
          = a / (IDEAL_BLOCK_TIME * DIFFICULTY_UPDATE_INTERVAL) := by
      intro a; unfold IDEAL_BLOCK_TIME DIFFICULTY_UPDATE_INTERVAL; omega
    rw [← Nat.cast_mul, hcast, clamp_if_eq_max_min]

/-- Witness for C8 at a concrete input: a 50-block chain with timestamps 0
to 49, so the actual time is 49 seconds against an ideal of 500. -/
theorem try_adjust_target_spec_witness :
    c8State.blocks.length % DIFFICULTY_UPDATE_INTERVAL = 0 ∧
    c8State.try_adjust_target =
      { c8State with target :=
          (min (max (c8State.target / 4)
            (min (c8State.target * 49 / (IDEAL_BLOCK_TIME * DIFFICULTY_UPDATE_INTERVAL))
              (c8State.target * 4))) MIN_TARGET) } :=
  ⟨rfl, (try_adjust_target_spec c8State).2 (c8Blk 0) (c8Blk 49) 49 rfl rfl rfl (by decide)⟩

/-- C1 (code evaluation at the failing input): the genesis block with a
single coinbase output of 50 * 10^8 is accepted onto the empty chain and
appended, but add_block leaves the UTXO set empty, with no entry under the
coinbase transaction hash; the documented entry appears only after a
separate rebuild_utxos call, which add_block never performs. -/
theorem add_block_genesis_utxo_eval :
    (Blockchain.add_block mockHash Blockchain.new genesisBlock).1 = Except.ok () ∧
    (Blockchain.add_block mockHash Blockchain.new genesisBlock).2.blocks = [genesisBlock] ∧
    (Blockchain.add_block mockHash Blockchain.new genesisBlock).2.utxos = [] ∧
    mapGet (Blockchain.add_block mockHash Blockchain.new genesisBlock).2.utxos
      (mockHash.hashTx genesisCoinbase) = none ∧
    mapGet ((Blockchain.rebuild_utxos mockHash
        (Blockchain.add_block mockHash Blockchain.new genesisBlock).2).utxos)
      (mockHash.hashTx genesisCoinbase) = some (false, genesisOutput) ∧
    genesisOutput.value = 50 * 10 ^ 8 :=
  ⟨rfl, rfl, rfl, rfl, rfl, rfl⟩

/-- C4 (code evaluation at the failing input): admitting a fee-100
transaction and then a fee-200 transaction succeeds and leaves the mempool
sorted ASCENDING by fee, with the fee sequence 100, 200 from front to
back, which is not non-increasing. -/
theorem add_to_mempool_fee_order_eval :
    c4Run.1 = Except.ok () ∧
    c4Run.2.mempool.map (fun p => p.2) = [c4TxA, c4TxB] ∧
    c4Run.2.mempool.map (fun p => mempoolFee c4Run.2.utxos p.2) = [100, 200] ∧
    ¬ (c4Run.2.mempool.map (fun p => mempoolFee c4Run.2.utxos p.2)).Sorted (· ≥ ·) := by
  refine ⟨rfl, rfl, rfl, ?_⟩
  intro hsorted
  have h12 : (100 : Nat) ≥ 200 := by
    have := hsorted
    rw [show c4Run.2.mempool.map (fun p => mempoolFee c4Run.2.utxos p.2) = [100, 200] from rfl]
      at this
    exact List.rel_of_sorted_cons this 200 (by simp)
  omega

/-- C5 (code evaluation at the failing input): admitting a transaction that
spends the UTXO under key 1 succeeds, yet the UTXO stays unmarked, and a
conflicting mempool transaction spending the same UTXO is not evicted:
both remain in the mempool. -/
theorem add_to_mempool_marking_eval :
    c5Run.1 = Except.ok () ∧
    mapGet c5Run.2.utxos 1 = some (false, c5OutU) ∧
    c5Run.2.mempool.map (fun p => p.2) = [c5TxA, c5TxB] :=
  ⟨rfl, rfl, rfl⟩

theorem mapGet_unmarked {m : UtxoMap} (hu : ∀ p ∈ m, p.2.1 = false) (k : Nat)
    (b : Bool) (o : TransactionOutput) (h : mapGet m k = some (b, o)) : b = false := by
  unfold mapGet at h
  cases hf : m.find? (fun e => e.1 == k) with
  | none => rw [hf] at h; simp at h
  | some e =>
    rw [hf] at h
    have h2 : e.2 = (b, o) := by simpa using h
    have h3 := hu e (List.mem_of_find?_eq_some hf)
    rw [h2] at h3
    exact h3

theorem rbfStep_unmarked (H : HashEnv) (s : Blockchain)
    (hu : ∀ p ∈ s.utxos, p.2.1 = false) (input : TransactionInput) :
    rbfStep H s input = s := by
  unfold rbfStep
  cases hg : mapGet s.utxos input.prev_transaction_output_hash with
  | none => rfl
  | some v =>
    obtain ⟨b, o⟩ := v
    cases b with
    | false => rfl
    | true => exact absurd (mapGet_unmarked hu _ _ _ hg) (by simp)

theorem rbfLoop_unmarked (H : HashEnv) (s : Blockchain)
    (hu : ∀ p ∈ s.utxos, p.2.1 = false) :
    ∀ l : List TransactionInput, rbfLoop H s l = s
  | [] => rfl
  | input :: rest => by
    unfold rbfLoop
    rw [rbfStep_unmarked H s hu input]
    exact rbfLoop_unmarked H s hu rest

/-- C6 counterexample: from a state in which the UTXO under key 5 is marked
and the mempool holds the transaction producing it, admitting an
overspending transaction that references key 5 fails the fee check AFTER
the RBF phase already evicted the mempool transaction, so the failed call
returns with a changed state (the mempool lost its entry). -/
theorem add_to_mempool_rollback_counterexample :
    (Blockchain.add_to_mempool mockHash c6State 1 c6TxT).1
      = Except.error BtcError.InvalidTransaction ∧
    (Blockchain.add_to_mempool mockHash c6State 1 c6TxT).2.mempool = [] ∧
    c6State.mempool = [(0, c6TxA)] ∧
    (Blockchain.add_to_mempool mockHash c6State 1 c6TxT).2 ≠ c6State :=
  ⟨rfl, rfl, rfl, by decide⟩

/-- C6 amended: on every state whose UTXO entries are all unmarked (which
includes every state the engine itself can reach, since no operation ever
sets a marked flag), a failed add_to_mempool leaves the blockchain state
(utxos including marked flags, mempool, blocks, target) exactly as it was:
the RBF phase is a no-op there, and every error return precedes every
mutation.  On states with marked entries the original claim fails, as the
counterexample shows. -/
theorem add_to_mempool_error_unchanged_of_unmarked (H : HashEnv) (s : Blockchain)
    (now : Int) (T : Transaction) (e : BtcError)
    (hu : ∀ p ∈ s.utxos, p.2.1 = false)
    (herr : (Blockchain.add_to_mempool H s now T).1 = Except.error e) :
    (Blockchain.add_to_mempool H s now T).2 = s := by
  unfold Blockchain.add_to_mempool at herr ⊢
  by_cases hc : checkKnownInputs s.utxos T.inputs []
  · rw [if_pos hc] at herr ⊢
    simp only [rbfLoop_unmarked H s hu] at herr ⊢
    split at herr
    · next hlt => rw [if_pos hlt]
    · next hge => simp at herr
  · rw [if_neg hc] at herr ⊢

/-- Witness for C6 (amended) at a concrete input: an all-unmarked state
rejecting an overspending transaction, with the state returned unchanged. -/
theorem add_to_mempool_error_unchanged_of_unmarked_witness :
    (∀ p ∈ c4State.utxos, p.2.1 = false) ∧
    (Blockchain.add_to_mempool mockHash c4State 0 c6TxBad).1
      = Except.error BtcError.InvalidTransaction ∧
    (Blockchain.add_to_mempool mockHash c4State 0 c6TxBad).2 = c4State :=
  ⟨by decide, rfl,
   add_to_mempool_error_unchanged_of_unmarked mockHash c4State 0 c6TxBad
     BtcError.InvalidTransaction (by decide) rfl⟩

theorem addBlockChecks_ok_extendOk (H : HashEnv) (s : Blockchain) (b : Block)
    (h : addBlockChecks H s b = Except.ok ()) : extendOk H s.blocks b := by
  unfold addBlockChecks at h
  unfold extendOk
  cases hl : s.blocks.getLast? with
  | none =>
    rw [hl] at h
    replace h : (if b.header.prev_block_hash ≠ 0 then
        (Except.error BtcError.InvalidBlock : Except BtcError Unit)
      else Except.ok ()) = Except.ok () := h
    show b.header.prev_block_hash = 0
    by_cases hp : b.header.prev_block_hash ≠ 0
    · rw [if_pos hp] at h; simp at h
    · exact not_not.mp hp
  | some last_block =>
    rw [hl] at h
    replace h : (if b.header.prev_block_hash ≠ H.hashBlock last_block then
        (Except.error BtcError.InvalidBlock : Except BtcError Unit)
      else if ¬ (H.hashHeader b.header ≤ b.header.target) then
        Except.error BtcError.InvalidBlock
      else if merkleRootCalculate H b.transactions ≠ b.header.merkle_root then
        Except.error BtcError.InvalidMerkleRoot
      else if b.header.timestamp ≤ last_block.header.timestamp then
        Except.error BtcError.InvalidBlock
      else Block.verify_transactions H b s.blocks.length s.utxos) = Except.ok () := h
    show b.header.prev_block_hash = H.hashBlock last_block ∧
      H.hashHeader b.header ≤ b.header.target ∧
      b.header.merkle_root = merkleRootCalculate H b.transactions ∧
      last_block.header.timestamp < b.header.timestamp
    by_cases h1 : b.header.prev_block_hash ≠ H.hashBlock last_block
    · rw [if_pos h1] at h; simp at h
    · rw [if_neg h1] at h
      by_cases h2 : ¬ (H.hashHeader b.header ≤ b.header.target)
      · rw [if_pos h2] at h; simp at h
      · rw [if_neg h2] at h
        by_cases h3 : merkleRootCalculate H b.transactions ≠ b.header.merkle_root
        · rw [if_pos h3] at h; simp at h
        · rw [if_neg h3] at h
          by_cases h4 : b.header.timestamp ≤ last_block.header.timestamp
          · rw [if_pos h4] at h; simp at h
          · exact ⟨not_not.mp h1, not_not.mp h2, (not_not.mp h3).symm, not_le.mp h4⟩

theorem reachableAdd_good (H : HashEnv) (s : Blockchain) (hs : ReachableAdd H s) :
    GoodBlocks H s.blocks ∧ s.mempool = [] := by
  induction hs with
  | base => exact ⟨GoodBlocks.nil, rfl⟩
  | step s b s' hr heq ih =>
    have h1 : (Blockchain.add_block H s b).1 = Except.ok () := by rw [heq]
    obtain ⟨hchecks, hstate⟩ := add_block_ok_decompose H s b h1
    have hs2 : s' = (Blockchain.add_block H s b).2 := by rw [heq]
    set X : Blockchain :=
      { s with
        mempool := s.mempool.filter
          (fun p => !((b.transactions.map H.hashTx).contains (H.hashTx p.2))),
        blocks := s.blocks ++ [b] } with hX
    have hpres := try_adjust_target_preserves X
    have hblocks : s'.blocks = s.blocks ++ [b] := by
      rw [hs2, hstate, hpres.1]
    have hmem : s'.mempool = [] := by
      rw [hs2, hstate, hpres.2.1, hX]
      simp [ih.2]
    refine ⟨?_, hmem⟩
    rw [hblocks]
    exact GoodBlocks.snoc s.blocks b ih.1 (addBlockChecks_ok_extendOk H s b hchecks)

theorem goodBlocks_head (H : HashEnv) :
    ∀ {l : List Block}, GoodBlocks H l → ∀ b0, l.head? = some b0 →
      b0.header.prev_block_hash = 0 := by
  intro l hg
  induction hg with
  | nil => intro b0 h; simp at h
  | snoc l c hgood hext ih =>
    intro b0 h
    cases l with
    | nil =>
      have hb : b0 = c := by simpa using h.symm
      subst hb
      exact hext
    | cons x xs =>
      have hx : ((x :: xs) ++ [c]).head? = some x := rfl
      rw [hx] at h
      have : b0 = x := by simpa using h.symm
      subst this
      exact ih b0 rfl

theorem goodBlocks_tail (H : HashEnv) :
    ∀ {l : List Block}, GoodBlocks H l → ∀ b ∈ l.tail,
      H.hashHeader b.header ≤ b.header.target ∧
      b.header.merkle_root = merkleRootCalculate H b.transactions := by
  intro l hg
  induction hg with
  | nil => intro b hb; simp at hb
  | snoc l c hgood hext ih =>
    intro b hb
    cases l with
    | nil => simp at hb
    | cons x xs =>
      rw [List.cons_append, List.tail_cons] at hb
      rcases List.mem_append.mp hb with h1 | h2
      · exact ih b h1
      · have hbc : b = c := by simpa using h2
        subst hbc
        unfold extendOk at hext
        cases hl : (x :: xs).getLast? with
        | none =>
          have hsome := (List.getLast?_isSome (l := x :: xs)).mpr (by simp)
          rw [hl] at hsome
          simp at hsome
        | some y =>
          rw [hl] at hext
          exact ⟨hext.2.1, hext.2.2.1⟩

theorem goodBlocks_chain (H : HashEnv) :
    ∀ {l : List Block}, GoodBlocks H l →
      List.Chain' (fun a b => b.header.prev_block_hash = H.hashBlock a ∧
        a.header.timestamp < b.header.timestamp) l := by
  intro l hg
  induction hg with
  | nil => exact List.chain'_nil
  | snoc l c hgood hext ih =>
    apply List.chain'_append.mpr
    refine ⟨ih, List.chain'_singleton c, ?_⟩
    intro x hx y hy
    have hy2 : y = c := by simpa using hy.symm
    subst hy2
    unfold extendOk at hext
    rw [Option.mem_def] at hx
    rw [hx] at hext
    exact ⟨hext.1, hext.2.2.2⟩

theorem head?_get_zero (l : List Block) (h0 : 0 < l.length) :
    l.head? = some (l.get ⟨0, h0⟩) := by
  cases l with
  | nil => simp at h0
  | cons x xs => rfl

theorem get_succ_mem_tail (l : List Block) (i : Nat) (hi : i + 1 < l.length) :
    l.get ⟨i + 1, hi⟩ ∈ l.tail := by
  cases l with
  | nil => simp at hi
  | cons x xs =>
    have hx : (x :: xs).get ⟨i + 1, hi⟩ = xs.get ⟨i, by simpa using hi⟩ := rfl
    rw [hx, List.tail_cons]
    exact List.get_mem xs i _

/-- C2 amended: for every chain reachable from the empty Blockchain by
successful add_block calls, invariants 1, 2, 3, 5 and 6 of the spec hold
as stated, and invariant 4 (header Merkle root equals the recomputed
Merkle root) holds for every block EXCEPT the genesis block at index 0,
whose Merkle root is never checked (the source skips proof of work, Merkle
and transaction checks for the first block).  Invariant 6 holds because a
chain built by add_block alone always has an empty mempool. -/
theorem reachable_chain_invariants (H : HashEnv) (s : Blockchain) (hs : ReachableAdd H s) :
    (∀ h0 : 0 < s.blocks.length, (s.blocks.get ⟨0, h0⟩).header.prev_block_hash = 0) ∧
    (∀ (i : Nat) (hi : i + 1 < s.blocks.length),
      (s.blocks.get ⟨i + 1, hi⟩).header.prev_block_hash
        = H.hashBlock (s.blocks.get ⟨i, Nat.lt_of_succ_lt hi⟩)) ∧
    (∀ (i : Nat) (hi : i + 1 < s.blocks.length),
      H.hashHeader (s.blocks.get ⟨i + 1, hi⟩).header
        ≤ (s.blocks.get ⟨i + 1, hi⟩).header.target) ∧
    (∀ (i : Nat) (hi : i + 1 < s.blocks.length),
      (s.blocks.get ⟨i + 1, hi⟩).header.merkle_root
        = merkleRootCalculate H (s.blocks.get ⟨i + 1, hi⟩).transactions) ∧
    (∀ (i : Nat) (hi : i + 1 < s.blocks.length),
      (s.blocks.get ⟨i, Nat.lt_of_succ_lt hi⟩).header.timestamp
        < (s.blocks.get ⟨i + 1, hi⟩).header.timestamp) ∧
    (∀ p ∈ s.mempool, ∀ input ∈ p.2.inputs, ∀ blk ∈ s.blocks, ∀ tx ∈ blk.transactions,
      ∀ inp ∈ tx.inputs,
        inp.prev_transaction_output_hash ≠ input.prev_transaction_output_hash) := by
  obtain ⟨hgood, hmem⟩ := reachableAdd_good H s hs
  have hchain := goodBlocks_chain H hgood
  have htail := goodBlocks_tail H hgood
  have hhead := goodBlocks_head H hgood
  refine ⟨?_, ?_, ?_, ?_, ?_, ?_⟩
  · intro h0; exact hhead _ (head?_get_zero s.blocks h0)
  · intro i hi
    exact ((List.chain'_iff_get.mp hchain) i (by omega)).1
  · intro i hi; exact (htail _ (get_succ_mem_tail s.blocks i hi)).1
  · intro i hi; exact (htail _ (get_succ_mem_tail s.blocks i hi)).2
  · intro i hi
    exact ((List.chain'_iff_get.mp hchain) i (by omega)).2
  · intro p hp
    rw [hmem] at hp
    simp at hp

/-- C2 counterexample: the claim as stated fails, because invariant 4 is
quantified over EVERY index, genesis included, while add_block never
checks the Merkle root of the genesis block.  The chain consisting of the
single block c2BadGenesis is reachable by one successful add_block call
from the empty Blockchain, yet the genesis header carries Merkle root 1
where the recomputed root of its (empty) transaction list is 0. -/
theorem reachable_chain_invariants_counterexample :
    ReachableAdd mockHash c2BadChain ∧
    c2BadChain.blocks.head? = some c2BadGenesis ∧
    c2BadGenesis.header.merkle_root
      ≠ merkleRootCalculate mockHash c2BadGenesis.transactions :=
  ⟨ReachableAdd.step Blockchain.new c2BadGenesis c2BadChain ReachableAdd.base rfl,
   rfl, by decide⟩

/-- Witness for C2 (amended) at a concrete input: the genesis-only chain
built from the valid genesis block satisfies invariant 1. -/
theorem reachable_chain_invariants_witness :
    (c1Chain.blocks.get ⟨0, by decide⟩).header.prev_block_hash = 0 :=
  (reachable_chain_invariants mockHash c1Chain
    (ReachableAdd.step Blockchain.new genesisBlock c1Chain ReachableAdd.base rfl)).1
    (by decide)

theorem add_block_utxos (H : HashEnv) (s : Blockchain) (b : Block) :
    (Blockchain.add_block H s b).2.utxos = s.utxos := by
  unfold Blockchain.add_block
  cases hc : addBlockChecks H s b with
  | error e => rfl
  | ok u => cases u; exact (try_adjust_target_preserves _).2.2

theorem add_to_mempool_unmarked_spec (H : HashEnv) (s : Blockchain) (now : Int)
    (T : Transaction) (hu : ∀ p ∈ s.utxos, p.2.1 = false) :
    (Blockchain.add_to_mempool H s now T).2.utxos = s.utxos ∧
    ((Blockchain.add_to_mempool H s now T).1 = Except.ok () →
      (Blockchain.add_to_mempool H s now T).2.mempool
        = insSort (fun a b => Nat.ble (mempoolFee s.utxos a.2) (mempoolFee s.utxos b.2))
            (s.mempool ++ [(now, T)])) ∧
    (∀ e, (Blockchain.add_to_mempool H s now T).1 = Except.error e →
      (Blockchain.add_to_mempool H s now T).2.mempool = s.mempool) := by
  unfold Blockchain.add_to_mempool
  by_cases hc : checkKnownInputs s.utxos T.inputs []
  · rw [if_pos hc]
    simp only [rbfLoop_unmarked H s hu]
    split
    · exact ⟨rfl, fun hok => by simp at hok, fun e he => rfl⟩
    · exact ⟨rfl, fun _ => rfl, fun e he => by simp at he⟩
  · rw [if_neg hc]
    exact ⟨rfl, fun hok => by simp at hok, fun e he => rfl⟩

theorem mapModify_unmark_id (k : Nat) :
    ∀ (m : UtxoMap), (∀ p ∈ m, p.2.1 = false) →
      mapModify m k (fun e => (false, e.2)) = m
  | [], _ => rfl
  | e :: rest, hu => by
    obtain ⟨k1, b1, o1⟩ := e
    have hb1 : b1 = false := hu (k1, b1, o1) (by simp)
    subst hb1
    unfold mapModify
    simp only [List.map_cons]
    have hrest := mapModify_unmark_id k rest (fun p hp => hu p (by simp [hp]))
    unfold mapModify at hrest
    rw [hrest]
    by_cases hk : k1 == k
    · have : k1 = k := by simpa using hk
      subst this
      simp
    · simp [hk]

theorem foldl_unmark_id (m : UtxoMap) (hu : ∀ p ∈ m, p.2.1 = false) :
    ∀ L : List Nat, L.foldl (fun u h => mapModify u h (fun e => (false, e.2))) m = m
  | [] => rfl
  | h :: rest => by
    simp only [List.foldl_cons]
    rw [mapModify_unmark_id h m hu]
    exact foldl_unmark_id m hu rest

theorem cleanup_mempool_unmarked_utxos (s : Blockchain) (now : Int)
    (hu : ∀ p ∈ s.utxos, p.2.1 = false) :
    (s.cleanup_mempool now).utxos = s.utxos := by
  unfold Blockchain.cleanup_mempool
  exact foldl_unmark_id s.utxos hu _

theorem foldl_preserve {β α : Type} (P : β → Prop) (f : β → α → β)
    (hf : ∀ b a, P b → P (f b a)) : ∀ (l : List α) (b : β), P b → P (l.foldl f b)
  | [], _, hb => hb
  | a :: rest, b, hb => foldl_preserve P f hf rest (f b a) (hf b a hb)

theorem mapRemove_unmarked {m : UtxoMap} (hu : ∀ p ∈ m, p.2.1 = false) (k : Nat) :
    ∀ p ∈ mapRemove m k, p.2.1 = false :=
  fun p hp => hu p (List.mem_of_mem_filter hp)

theorem mapInsert_unmarked {m : UtxoMap} (hu : ∀ p ∈ m, p.2.1 = false) (k : Nat)
    (o : TransactionOutput) : ∀ p ∈ mapInsert m k (false, o), p.2.1 = false := by
  intro p hp
  unfold mapInsert at hp
  split at hp
  · rcases List.mem_map.mp hp with ⟨q, hq, hpq⟩
    by_cases hqk : q.1 == k
    · rw [if_pos hqk] at hpq; rw [← hpq]
    · rw [if_neg hqk] at hpq; rw [← hpq]; exact hu q hq
  · rcases List.mem_append.mp hp with h1 | h2
    · exact hu p h1
    · have hp2 : p = (k, (false, o)) := by simpa using h2
      rw [hp2]

theorem rebuild_utxos_unmarked (H : HashEnv) (s : Blockchain)
    (hu : ∀ p ∈ s.utxos, p.2.1 = false) :
    ∀ p ∈ (s.rebuild_utxos H).utxos, p.2.1 = false := by
  unfold Blockchain.rebuild_utxos
  refine foldl_preserve (fun u : UtxoMap => ∀ p ∈ u, p.2.1 = false) _ ?_ s.blocks s.utxos hu
  intro u block hub
  refine foldl_preserve (fun u : UtxoMap => ∀ p ∈ u, p.2.1 = false) _ ?_ block.transactions u hub
  intro u2 transaction hu2
  refine foldl_preserve (fun u : UtxoMap => ∀ p ∈ u, p.2.1 = false) _ ?_ transaction.outputs _ ?_
  · intro u3 output hu3
    exact mapInsert_unmarked hu3 _ _
  · refine foldl_preserve (fun u : UtxoMap => ∀ p ∈ u, p.2.1 = false) _ ?_ transaction.inputs u2 hu2
    intro u3 input hu3
    exact mapRemove_unmarked hu3 _

/-- C10: from Blockchain::new every engine operation preserves the
invariant that every UTXO entry is unmarked (nothing ever sets a marked
flag to true), so on every reachable state the RBF eviction branch of
add_to_mempool is unreachable (a call either fails leaving the mempool
untouched, or succeeds by appending the new entry and re-sorting, with the
UTXO set unchanged in both cases), and the unmark loop of cleanup_mempool
never changes the UTXO set. -/
theorem engine_never_marks (H : HashEnv) (s : Blockchain) (hs : EngineReachable H s) :
    (∀ p ∈ s.utxos, p.2.1 = false) ∧
    (∀ (now : Int) (T : Transaction),
      (Blockchain.add_to_mempool H s now T).2.utxos = s.utxos ∧
      ((Blockchain.add_to_mempool H s now T).1 = Except.ok () →
        (Blockchain.add_to_mempool H s now T).2.mempool
          = insSort (fun a b => Nat.ble (mempoolFee s.utxos a.2) (mempoolFee s.utxos b.2))
              (s.mempool ++ [(now, T)])) ∧
      (∀ e, (Blockchain.add_to_mempool H s now T).1 = Except.error e →
        (Blockchain.add_to_mempool H s now T).2.mempool = s.mempool)) ∧
    (∀ now : Int, (s.cleanup_mempool now).utxos = s.utxos) := by
  have hu : ∀ p ∈ s.utxos, p.2.1 = false := by
    induction hs with
    | base => intro p hp; simp [Blockchain.new] at hp
    | addBlock s b hr ih => rw [add_block_utxos H s b]; exact ih
    | addToMempool s now T hr ih =>
      rw [(add_to_mempool_unmarked_spec H s now T ih).1]; exact ih
    | cleanup s now hr ih => rw [cleanup_mempool_unmarked_utxos s now ih]; exact ih
    | rebuild s hr ih => exact rebuild_utxos_unmarked H s ih
    | adjust s hr ih => rw [(try_adjust_target_preserves s).2.2]; exact ih
  exact ⟨hu, fun now T => add_to_mempool_unmarked_spec H s now T hu,
    fun now => cleanup_mempool_unmarked_utxos s now hu⟩

/-- Witness for C10 at a concrete input: the unmark loop of
cleanup_mempool leaves the UTXO set of the initial state unchanged. -/
theorem engine_never_marks_witness :
    (Blockchain.cleanup_mempool Blockchain.new 0).utxos = Blockchain.new.utxos :=
  (engine_never_marks mockHash Blockchain.new EngineReachable.base).2.2 0
